import Mathlib

/-!
# Verification of the `ustore.Async` key-value store

Shallow embedding of the asynchronous, index-backed store engine
(`ustore.Async` class) and of the `obj_merge` helper.  The backing
IndexedDB table is modelled as an association list from keys to stored
records, kept in ascending primary-key order (IndexedDB stores records
sorted by key); cursors over secondary indexes are modelled as stable
sorts of that base list, matching IndexedDB's iteration order (index key
ascending, ties by primary key) and the stability guaranteed for
JavaScript `Array.prototype.sort`.

Stored records are JavaScript objects `{value, options, timestamp}`;
since `cursor.update` replaces the whole record, fields can be absent
afterwards, so `options` and `timestamp` are `Option`-valued.  Times
(`Date.now()`) are integers.  Keys are modelled as naturals (IndexedDB
admits numbers and strings; the claims under verification only exercise
the ordering of numeric data, never inter-type key comparison).
-/

namespace UStore

/-- JSON-like structured values: the payloads the store holds
(`Value extends object | string | any[]` plus numbers inside them). -/
inductive JValue where
  | str : String → JValue
  | num : Int → JValue
  | arr : List JValue → JValue
  | obj : List (String × JValue) → JValue
deriving Repr

mutual

/-- Decidable equality on `JValue` (the nested inductive prevents the
automatic derivation). -/
def decEqJ : (a b : JValue) → Decidable (a = b)
  | .str a, .str b =>
    match String.decEq a b with
    | isTrue h => isTrue (by rw [h])
    | isFalse h => isFalse (by intro hh; injection hh; exact h (by assumption))
  | .num a, .num b =>
    match Int.decEq a b with
    | isTrue h => isTrue (by rw [h])
    | isFalse h => isFalse (by intro hh; injection hh; exact h (by assumption))
  | .arr xs, .arr ys =>
    match decEqListJ xs ys with
    | isTrue h => isTrue (by rw [h])
    | isFalse h => isFalse (by intro hh; injection hh; exact h (by assumption))
  | .obj xs, .obj ys =>
    match decEqFieldsJ xs ys with
    | isTrue h => isTrue (by rw [h])
    | isFalse h => isFalse (by intro hh; injection hh; exact h (by assumption))
  | .str _, .num _ => isFalse (by intro h; cases h)
  | .str _, .arr _ => isFalse (by intro h; cases h)
  | .str _, .obj _ => isFalse (by intro h; cases h)
  | .num _, .str _ => isFalse (by intro h; cases h)
  | .num _, .arr _ => isFalse (by intro h; cases h)
  | .num _, .obj _ => isFalse (by intro h; cases h)
  | .arr _, .str _ => isFalse (by intro h; cases h)
  | .arr _, .num _ => isFalse (by intro h; cases h)
  | .arr _, .obj _ => isFalse (by intro h; cases h)
  | .obj _, .str _ => isFalse (by intro h; cases h)
  | .obj _, .num _ => isFalse (by intro h; cases h)
  | .obj _, .arr _ => isFalse (by intro h; cases h)

/-- Decidable equality on lists of `JValue`. -/
def decEqListJ : (xs ys : List JValue) → Decidable (xs = ys)
  | [], [] => isTrue rfl
  | [], _ :: _ => isFalse (by intro h; cases h)
  | _ :: _, [] => isFalse (by intro h; cases h)
  | x :: xs, y :: ys =>
    match decEqJ x y with
    | isFalse h => isFalse (by intro hh; injection hh; exact h (by assumption))
    | isTrue h1 =>
      match decEqListJ xs ys with
      | isTrue h2 => isTrue (by rw [h1, h2])
      | isFalse h => isFalse (by intro hh; injection hh; exact h (by assumption))

/-- Decidable equality on field lists of `JValue` objects. -/
def decEqFieldsJ : (xs ys : List (String × JValue)) → Decidable (xs = ys)
  | [], [] => isTrue rfl
  | [], _ :: _ => isFalse (by intro h; cases h)
  | _ :: _, [] => isFalse (by intro h; cases h)
  | (k, x) :: xs, (k', y) :: ys =>
    match String.decEq k k' with
    | isFalse h =>
      isFalse (by intro hh; injection hh with h1 _; injection h1; exact h (by assumption))
    | isTrue hk =>
      match decEqJ x y with
      | isFalse h =>
        isFalse (by intro hh; injection hh with h1 _; injection h1; exact h (by assumption))
      | isTrue hx =>
        match decEqFieldsJ xs ys with
        | isTrue h2 => isTrue (by rw [hk, hx, h2])
        | isFalse h => isFalse (by intro hh; injection hh; exact h (by assumption))

end

instance : DecidableEq JValue := decEqJ

/-- JavaScript `typeof v == "object"`: true for plain objects and arrays. -/
def isObjLike : JValue → Bool
  | .obj _ => true
  | .arr _ => true
  | _ => false

/-- Property read `a[k]` on an object's field list (first match). -/
def getField : List (String × JValue) → String → Option JValue
  | [], _ => none
  | (k', v) :: tl, k => if k' = k then some v else getField tl k

/-- Property assignment `a[k] = v`: overwrites in place when the key
exists, otherwise appends (JavaScript insertion-order semantics). -/
def setField : List (String × JValue) → String → JValue → List (String × JValue)
  | [], k, v => [(k, v)]
  | (k', v') :: tl, k, v =>
    if k' = k then (k, v) :: tl else (k', v') :: setField tl k v

/-- After the recursive `obj_merge(a[key], b[key])` call, persist the
mutation: the call mutated the object `a[key]` references, so the new
content `m` is visible through `a` exactly when `a[key]` was an object
or an array; when `a[key]` was absent or a primitive, nothing was
written back (a successful recursive call on such an argument did not
mutate anything reachable from `a`). -/
def writeBack (af : List (String × JValue)) (k : String) (m : Option JValue) :
    List (String × JValue) :=
  match m, getField af k with
  | some mv, some (.obj _) => setField af k mv
  | some mv, some (.arr _) => setField af k mv
  | _, _ => af

mutual

/-- `obj_merge(a, b)` from `utils.ts`, for the shapes of `b` that reach
it from `Async.update`:

```js
for (const key in b) {
  if (typeof b[key] == "object") obj_merge(a[key], b[key]);
  else a[key] = b[key];
}
return a;
```

`a : Option JValue` models the JavaScript value-or-`undefined` bound to
`a`; the outer `Option` is `none` on a `TypeError` (the module is
strict-mode ESM, so assigning a property of a primitive or of
`undefined` throws, as does reading a property of `undefined`).
A non-object `b` iterates nothing and returns `a` unchanged (numbers
reach this case; string `b` never reaches `obj_merge` from its call
sites).  Merging fields into an array-valued `a` (legal in JavaScript
via index/expando properties) is not exercised by the spec's claims and
is modelled as an error. -/
def jsMerge (a : Option JValue) : JValue → Option (Option JValue)
  | .obj bf => jsMergeFields a bf
  | .arr bxs => jsMergeArr a 0 bxs
  | _ => some a

/-- The `for (const key in b)` loop of `obj_merge` over an object `b`'s
fields, threading the (mutated) `a` through. -/
def jsMergeFields (a : Option JValue) : List (String × JValue) → Option (Option JValue)
  | [] => some a
  | (k, bv) :: rest =>
    if isObjLike bv then
      match a with
      | some (.obj af) =>
        match jsMerge (getField af k) bv with
        | some m => jsMergeFields (some (.obj (writeBack af k m))) rest
        | none => none
      | some (.arr _) => none
      | some _ =>
        match jsMerge none bv with
        | some _ => jsMergeFields a rest
        | none => none
      | none => none
    else
      match a with
      | some (.obj af) => jsMergeFields (some (.obj (setField af k bv))) rest
      | _ => none

/-- `for (const key in b)` when `b` is an array: iterates its index
keys `"0"`, `"1"`, ... (as strings) with the corresponding elements. -/
def jsMergeArr (a : Option JValue) (i : Nat) : List JValue → Option (Option JValue)
  | [] => some a
  | bv :: rest =>
    if isObjLike bv then
      match a with
      | some (.obj af) =>
        match jsMerge (getField af (toString i)) bv with
        | some m => jsMergeArr (some (.obj (writeBack af (toString i) m))) (i + 1) rest
        | none => none
      | some (.arr _) => none
      | some _ =>
        match jsMerge none bv with
        | some _ => jsMergeArr a (i + 1) rest
        | none => none
      | none => none
    else
      match a with
      | some (.obj af) => jsMergeArr (some (.obj (setField af (toString i) bv))) (i + 1) rest
      | _ => none

end

/-! ## The backing table -/

/-- Primary keys of the table. -/
abbrev Key := Nat

/-- A stored row, the JavaScript object `{value, options, timestamp}`
put by `Async.set`.  `cursor.update` replaces the whole record, so
`options` and `timestamp` may be absent afterwards. -/
structure Rec where
  value : JValue
  options : Option JValue
  timestamp : Option Int
deriving Repr, DecidableEq

/-- The backing IndexedDB object store: rows in ascending primary-key
order. -/
abbrev Table := List (Key × Rec)

/-- Primary-key lookup (`table.get(key)` / `table.getKey(key)`). -/
def lookup : Table → Key → Option Rec
  | [], _ => none
  | (k', r) :: tl, k => if k' = k then some r else lookup tl k

/-- `table.put(record, key)`: inserts or overwrites, keeping rows in
ascending key order as IndexedDB does. -/
def put : Table → Key → Rec → Table
  | [], k, r => [(k, r)]
  | (k', r') :: tl, k, r =>
    if k < k' then (k, r) :: (k', r') :: tl
    else if k = k' then (k, r) :: tl
    else (k', r') :: put tl k r

/-- `cursor.delete()` on the cursor positioned at `key`. -/
def eraseKey : Table → Key → Table
  | [], _ => []
  | (k', r') :: tl, k => if k' = k then tl else (k', r') :: eraseKey tl k

/-- The rows are strictly ascending in primary key (IndexedDB invariant,
established by `put` and preserved by every operation). -/
def SortedKeys (tbl : Table) : Prop :=
  tbl.Pairwise (fun a b => a.1 < b.1)

instance (tbl : Table) : Decidable (SortedKeys tbl) :=
  inferInstanceAs (Decidable (tbl.Pairwise (fun (a b : Key × Rec) => a.1 < b.1)))

/-- The value at key path `options.expiry` of a record, when it is a
number: the key under which the row appears in the reserved `byExpiry`
index.  Rows without a numeric `options.expiry` are absent from that
index. -/
def expiryOf (r : Rec) : Option Int :=
  match r.options with
  | some (.obj fs) =>
    match getField fs "expiry" with
    | some (.num t) => some t
    | _ => none
  | _ => none

/-- Whether the `byExpiry` sweep bounded above by `now` matches the row:
`IDBKeyRange.upperBound(Date.now())` is inclusive, so rows with
`options.expiry ≤ now` match; rows not in the index never match. -/
def isExpired (now : Int) (r : Rec) : Bool :=
  match expiryOf r with
  | some t => decide (t ≤ now)
  | none => false

/-- `Async._rm_expired` run at time `now`: cursors the `byExpiry` index
up to `now` and deletes every matched row.  Runs inside `Async._table`
before every table access. -/
def rm_expired (now : Int) (tbl : Table) : Table :=
  tbl.filter (fun kv => !isExpired now kv.2)

/-- Whether `Async._rm_expired` posts a change notification: it does so
exactly when its cursor matched at least one row. -/
def sweepPosted (now : Int) (tbl : Table) : Bool :=
  tbl.any (fun kv => isExpired now kv.2)

/-! ## Cursor orders

A cursor over a secondary index visits rows ordered by index key,
ties broken by primary key — i.e. by position in the key-ordered base
list, since the sort below is stable. -/

/-- Insert `x` into a sorted list before the first element whose sort
key is not smaller: a stable insertion. -/
def insLe (f : α → Int) (x : α) : List α → List α
  | [] => [x]
  | y :: tl => if f x ≤ f y then x :: y :: tl else y :: insLe f x tl

/-- Stable insertion sort by an integer sort key: the model of both a
stable JavaScript `Array.prototype.sort` with comparator
`(a, b) => f(a) - f(b)` and of an IndexedDB index cursor's
(index key, primary key) iteration order. -/
def ssort (f : α → Int) : List α → List α
  | [] => []
  | x :: tl => insLe f x (ssort f tl)

/-- The sort key of a row in the reserved `byTimestamp` index.  Every
row written by `set` has a timestamp; rows that lost it (see
`updateOp`) are absent from the index, and the `getD` default is never
consulted on the filtered list below. -/
def tsKey (kv : Key × Rec) : Int :=
  kv.2.timestamp.getD 0

/-- The rows visited by a cursor over the `byTimestamp` index, in
ascending order (timestamp, then primary key). -/
def tsRows (tbl : Table) : Table :=
  ssort tsKey (tbl.filter (fun kv => kv.2.timestamp.isSome))

/-! ## Public operations

Every public operation goes through `Async._table`, i.e. runs
`rm_expired` first.  Operations that post a broadcast-channel change
notification themselves return a `Bool` flag for it (the sweep's own
notification is `sweepPosted`). -/

/-- `Async.has(key)`: `!!(await table.getKey(key))`. -/
def hasOp (now : Int) (k : Key) (tbl : Table) : Bool :=
  (lookup (rm_expired now tbl) k).isSome

/-- `Async.get(key)` with no `get` middleware configured:
`(await table.get(key))?.value`. -/
def getOp (now : Int) (k : Key) (tbl : Table) : Option JValue :=
  (lookup (rm_expired now tbl) k).map (·.value)

/-- `Async.set(value, key, options = {})`: puts
`{value, options, timestamp: Date.now()}` and posts a notification;
returns the effective key. -/
def setOp (now : Int) (k : Key) (v : JValue) (opts : JValue) (tbl : Table) : Table × Key :=
  (put (rm_expired now tbl) k ⟨v, some opts, some now⟩, k)

/-- `Async.rm(key)`: deletes the row under the cursor if one matched,
posting a notification only then. -/
def rmOp (now : Int) (k : Key) (tbl : Table) : Table × Bool :=
  let tb := rm_expired now tbl
  match lookup tb k with
  | none => (tb, false)
  | some _ => (eraseKey tb k, true)

/-- `Async.consume(key)`: reads the row's value, then — when a
`consume_default` was configured at init — replaces the record with
`{value: consume_default}` via `cursor.update` (no `options`, no
`timestamp` field in the replacement), otherwise deletes the row.
Returns `(returned value, table, posted)`. -/
def consumeOp (cd : Option JValue) (now : Int) (k : Key) (tbl : Table) :
    Option JValue × Table × Bool :=
  let tb := rm_expired now tbl
  match lookup tb k with
  | none => (none, tb, false)
  | some r =>
    match cd with
    | some d => (some r.value, put tb k ⟨d, none, none⟩, true)
    | none => (some r.value, eraseKey tb k, true)

/-- The literal `{value?, options?}` patch accepted by `Async.update`
(the async-updater form produces the same shape). -/
structure UpdateData where
  value : Option JValue
  options : Option JValue

/-- The spread `[...old, ...new]` used by `update` when the patch value
is an array: concatenation when the old value is an array; a string
spreads into its characters; other old values are not iterable
(`TypeError`). -/
def spreadConcat (old : JValue) (xs : List JValue) : Option (List JValue) :=
  match old with
  | .arr ys => some (ys ++ xs)
  | .str s => some (s.toList.map (fun c => JValue.str (String.singleton c)) ++ xs)
  | _ => none

/-- The merged value stored by `Async.update`:

```js
value !== undefined
  ? typeof value == "object"
    ? Array.isArray(value) ? [...cursor.value.value, ...value]
                           : obj_merge(cursor.value.value, value)
    : value
  : cursor.value.value
``` -/
def mergeValue (old : JValue) (patch : Option JValue) : Option JValue :=
  match patch with
  | none => some old
  | some v =>
    if isObjLike v then
      match v with
      | .arr xs => (spreadConcat old xs).map JValue.arr
      | _ => (jsMerge (some old) v).bind id
    else some v

/-- `obj_merge(cursor.value.options, options)`: a `for … in` over an
absent patch iterates nothing and returns the old options unchanged. -/
def mergeOptions (old : Option JValue) (patch : Option JValue) : Option (Option JValue) :=
  match patch with
  | none => some old
  | some o => jsMerge old o

/-- `Async.update(key, data)`: throws `NoSuchEntry` (modelled as `none`)
when no live row matches; otherwise replaces the record via
`cursor.update({options: obj_merge(...), value: ...})` — note the
replacement record carries **no** `timestamp` field — and posts a
notification. -/
def updateOp (now : Int) (k : Key) (data : UpdateData) (tbl : Table) :
    Option (Table × Bool) :=
  let tb := rm_expired now tbl
  match lookup tb k with
  | none => none
  | some r =>
    match mergeOptions r.options data.options with
    | none => none
    | some newOpts =>
      match mergeValue r.value data.value with
      | none => none
      | some newVal => some (put tb k ⟨newVal, newOpts, none⟩, true)

/-- `Async.export()`: walks the primary cursor collecting every row, in
key order — i.e. the (swept) table itself. -/
def exportOp (now : Int) (tbl : Table) : Table :=
  rm_expired now tbl

/-- `Async.import(set, merge?)`: clears the table unless `merge`, then
puts every snapshot row back verbatim (no re-stamping).  Import posts
no notification. -/
def importOp (now : Int) (snap : Table) (merge : Bool) (tbl : Table) : Table :=
  let tb := rm_expired now tbl
  let base := if merge then tb else []
  snap.foldl (fun acc kv => put acc kv.1 kv.2) base

/-- The rows a `byTimestamp` cursor over the (swept) table visits, in
iteration direction: `"next"` (ascending) or, under `reverse`,
`"prev"` — the exact reverse, since a backwards index cursor also
reverses the primary-key tie order. -/
def pageRows (reverse : Bool) (now : Int) (tbl : Table) : Table :=
  let rows := tsRows (rm_expired now tbl)
  if reverse then rows.reverse else rows

/-- `Async.values(reverse?)`: a full dump over the `byTimestamp` index
cursor, direction `"prev"` when `reverse`. -/
def valuesOp (reverse : Bool) (now : Int) (tbl : Table) : List (Key × JValue) :=
  (pageRows reverse now tbl).map (fun kv => (kv.1, kv.2.value))

/-- Result of the paginating operations. -/
structure PageResult where
  results : List (Key × JValue)
  has_next : Bool
deriving Repr, DecidableEq

/-- `Async.page(number, {reverse, sz, offset})`: a `byTimestamp` cursor
advanced past `(number-1)*sz + offset` rows, collecting up to `sz`
rows; `has_next` is whether the cursor still holds a row after the
window (`!!cursor`), i.e. whether the window's end lies strictly inside
the row list.  `number` starts from 1. -/
def pageOp (number : Nat) (reverse : Bool) (sz offset : Nat) (now : Int) (tbl : Table) :
    PageResult :=
  let rows := pageRows reverse now tbl
  let skip := (number - 1) * sz + offset
  { results := ((rows.drop skip).take sz).map (fun kv => (kv.1, kv.2.value))
    has_next := decide (skip + sz < rows.length) }

/-! ## Secondary-index queries -/

/-- The query modes of `Async.index` (the `IDBKeyRange` built from the
mode-tagged options object). -/
inductive QueryMode where
  | noQuery : QueryMode
  | only : Int → QueryMode
  | above : Int → Bool → QueryMode
  | below : Int → Bool → QueryMode
  | range : Int → Int → Bool → Bool → QueryMode

/-- Key-range membership.  `above`/`below` build
`IDBKeyRange.lowerBound/upperBound(value, !inclusive)` and `range`
builds `IDBKeyRange.bound(lo, hi, !lower_inclusive, !upper_inclusive)`,
so an unset flag means an open (exclusive) bound. -/
def inQuery : QueryMode → Int → Bool
  | .noQuery, _ => true
  | .only v, x => decide (x = v)
  | .above v inc, x => if inc then decide (v ≤ x) else decide (v < x)
  | .below v inc, x => if inc then decide (x ≤ v) else decide (x < v)
  | .range lo hi loInc hiInc, x =>
    (if loInc then decide (lo ≤ x) else decide (lo < x)) &&
    (if hiInc then decide (x ≤ hi) else decide (x < hi))

/-- Resolution of the dot-path (segments of the `path` declared for the
index, rooted at the record's `value`). -/
def resolvePath (v : JValue) : List String → Option JValue
  | [] => some v
  | seg :: rest =>
    match v with
    | .obj fs =>
      match getField fs seg with
      | some v' => resolvePath v' rest
      | none => none
    | _ => none

/-- The index key of a row for the index over `value.<path>`, when that
path resolves to a number.  Rows whose path value is not a valid key
are absent from the index (the claims only exercise numeric index
values, so other valid key types are not modelled). -/
def indexKeyOf (path : List String) (r : Rec) : Option Int :=
  match resolvePath r.value path with
  | some (.num n) => some n
  | _ => none

/-- The rows visited by `index.openCursor(query)`: the indexed rows
matching the query, ordered by index key and then by primary key. -/
def indexCursorRows (path : List String) (q : QueryMode) (tbl : Table) : Table :=
  ssort (fun kv => (indexKeyOf path kv.2).getD 0)
    (tbl.filter (fun kv =>
      match indexKeyOf path kv.2 with
      | some x => inQuery q x
      | none => false))

/-- The row list `Async.index` builds before returning: cursor rows,
then `values.sort((a, b) => a.timestamp - b.timestamp)` (or
`b.timestamp - a.timestamp` under `reverse`) — a stable sort **by
timestamp alone**. -/
def indexSortedRows (path : List String) (q : QueryMode) (reverse : Bool)
    (now : Int) (tbl : Table) : Table :=
  let rows := indexCursorRows path q (rm_expired now tbl)
  if reverse then ssort (fun kv => -tsKey kv) rows else ssort tsKey rows

/-- `Async.index(name, options)` without pagination: the sorted rows as
`{key, value}` pairs. -/
def indexNoPage (path : List String) (q : QueryMode) (reverse : Bool)
    (now : Int) (tbl : Table) : List (Key × JValue) :=
  (indexSortedRows path q reverse now tbl).map (fun kv => (kv.1, kv.2.value))

/-- `Async.index(name, options)` with pagination: pushes
`values[i]` for `i` from `(page-1)*page_sz + offset` while
`i < page*page_sz + offset` and `i < values.length`; `has_next` is
`!!values[page*page_sz + offset]`.  `page` starts from 1. -/
def indexPage (path : List String) (q : QueryMode) (reverse : Bool)
    (page page_sz offset : Nat) (now : Int) (tbl : Table) : PageResult :=
  let sorted := indexSortedRows path q reverse now tbl
  let start := (page - 1) * page_sz + offset
  let stop := page * page_sz + offset
  { results := ((sorted.drop start).take (stop - start)).map (fun kv => (kv.1, kv.2.value))
    has_next := decide (stop < sorted.length) }

/-! ## Init version check -/

/-- The guard at the top of `Async.init`:
`if (options?.version && options.version <= 0) throw ...` — note the
JavaScript truthiness conjunction: `version = 0` is falsy and skips the
check. -/
def initVersionThrows (version : Option Int) : Bool :=
  match version with
  | none => false
  | some v => decide (v ≠ 0) && decide (v ≤ 0)

/-! ## Operation sequences -/

/-- A public mutating operation addressed at one key, for stating
frame/expiry properties over sequences of operations. -/
inductive Op where
  | set : Key → JValue → JValue → Op
  | rm : Key → Op
  | consume : Key → Op
  | update : Key → UpdateData → Op

/-- The key an operation addresses. -/
def Op.key : Op → Key
  | .set k _ _ => k
  | .rm k => k
  | .consume k => k
  | .update k _ => k

/-- The table after one public operation run at time `now` (a failing
`update` leaves the table as the sweep left it: the throw happens after
`_table` ran `_rm_expired`). -/
def applyOp (cd : Option JValue) (now : Int) (op : Op) (tbl : Table) : Table :=
  match op with
  | .set k v o => (setOp now k v o tbl).1
  | .rm k => (rmOp now k tbl).1
  | .consume k => (consumeOp cd now k tbl).2.1
  | .update k d =>
    match updateOp now k d tbl with
    | some (tb, _) => tb
    | none => rm_expired now tbl

/-- The table after a sequence of timestamped public operations. -/
def applyOps (cd : Option JValue) (ops : List (Op × Int)) (tbl : Table) : Table :=
  ops.foldl (fun tb p => applyOp cd p.2 p.1 tb) tbl

/-! ## Concrete tables used by counterexamples and witnesses -/

/-- A row whose indexed value (`value.p`) is 2 but whose timestamp 5 is
early. -/
def exRowA : Rec := ⟨JValue.obj [("p", JValue.num 2)], some (JValue.obj []), some 5⟩

/-- A row whose indexed value (`value.p`) is 1 but whose timestamp 9 is
late. -/
def exRowB : Rec := ⟨JValue.obj [("p", JValue.num 1)], some (JValue.obj []), some 9⟩

/-- Two live rows where index-key order (B before A) and timestamp
order (A before B) disagree. -/
def exTable2 : Table := [(1, exRowA), (2, exRowB)]

/-- A row for the range-query scenario: key `i`, indexed numeric value
`v` at path `p`, timestamp `t`, no expiry. -/
def rngRow (i : Nat) (v : Int) (t : Int) : Key × Rec :=
  (i, ⟨JValue.obj [("p", JValue.num v)], some (JValue.obj []), some t⟩)

/-- Rows with indexed numeric values 15, 16, 17, 20 (claim C6's
scenario). -/
def exTable6 : Table := [rngRow 1 15 1, rngRow 2 16 2, rngRow 3 17 3, rngRow 4 20 4]

/-- A row with value 7, expiry 100 and timestamp 5, for the consume
scenario. -/
def exRow8 : Rec := ⟨JValue.num 7, some (JValue.obj [("expiry", JValue.num 100)]), some 5⟩

/-- Fields of a multi-field object value: a scalar `a`, a nested object
`b` with two fields, and a scalar sibling `s`. -/
def exFields4 : List (String × JValue) :=
  [("a", JValue.num 1),
   ("b", JValue.obj [("c", JValue.num 2), ("d", JValue.num 3)]),
   ("s", JValue.str "x")]

/-- A row holding that object value. -/
def exRec4 : Rec := ⟨JValue.obj exFields4, some (JValue.obj []), some 5⟩

/-- A one-row table for the update-merge scenario. -/
def exTable4 : Table := [(1, exRec4)]

/-- A patch naming only `a` and `b.c`. -/
def exPatchFields4 : List (String × JValue) :=
  [("a", JValue.num 10), ("b", JValue.obj [("c", JValue.num 20)])]

/-- The merge of the patch into the value: `a` overwritten, `b`
recursively merged (`b.d` kept), sibling `s` untouched. -/
def exMerged4 : List (String × JValue) :=
  [("a", JValue.num 10),
   ("b", JValue.obj [("c", JValue.num 20), ("d", JValue.num 3)]),
   ("s", JValue.str "x")]

/-- A one-row table for the consume scenario. -/
def exTable8 : Table := [(1, exRow8)]

/-! ## Association-list lemmas -/

theorem lookup_put_self (tbl : Table) (k : Key) (r : Rec) :
    lookup (put tbl k r) k = some r := by
  induction tbl with
  | nil => simp [put, lookup]
  | cons hd tl ih =>
    obtain ⟨k', r'⟩ := hd
    by_cases h1 : k < k'
    · simp [put, h1, lookup]
    · by_cases h2 : k = k'
      · simp [put, h1, h2, lookup]
      · simp [put, h1, h2, lookup, Ne.symm h2, ih]

theorem lookup_put_ne (tbl : Table) (k k' : Key) (r : Rec) (h : k' ≠ k) :
    lookup (put tbl k r) k' = lookup tbl k' := by
  induction tbl with
  | nil => simp [put, lookup, Ne.symm h]
  | cons hd tl ih =>
    obtain ⟨k0, r0⟩ := hd
    by_cases h1 : k < k0
    · simp [put, h1, lookup, Ne.symm h]
    · by_cases h2 : k = k0
      · subst h2
        simp [put, h1, lookup, Ne.symm h]
      · simp only [put, if_neg h1, if_neg h2, lookup]
        by_cases h3 : k0 = k'
        · simp [h3]
        · simp [h3, ih]

theorem lookup_eraseKey_ne (tbl : Table) (k k' : Key) (h : k' ≠ k) :
    lookup (eraseKey tbl k) k' = lookup tbl k' := by
  induction tbl with
  | nil => simp [eraseKey]
  | cons hd tl ih =>
    obtain ⟨k0, r0⟩ := hd
    by_cases h1 : k0 = k
    · subst h1
      simp [eraseKey, lookup, Ne.symm h]
    · simp only [eraseKey, if_neg h1, lookup]
      by_cases h2 : k0 = k'
      · simp [h2]
      · simp [h2, ih]

theorem eraseKey_sublist (tbl : Table) (k : Key) : (eraseKey tbl k).Sublist tbl := by
  induction tbl with
  | nil => simp [eraseKey]
  | cons hd tl ih =>
    obtain ⟨k0, r0⟩ := hd
    by_cases h1 : k0 = k
    · rw [eraseKey, if_pos h1]
      exact List.sublist_cons_self (k0, r0) tl
    · rw [eraseKey, if_neg h1]
      exact ih.cons₂ (k0, r0)

theorem mem_put (tbl : Table) (k : Key) (r : Rec) (x : Key × Rec)
    (hx : x ∈ put tbl k r) : x = (k, r) ∨ x ∈ tbl := by
  induction tbl with
  | nil => simpa [put] using hx
  | cons hd tl ih =>
    obtain ⟨k0, r0⟩ := hd
    by_cases h1 : k < k0
    · rw [put, if_pos h1] at hx
      simp only [List.mem_cons] at hx ⊢
      tauto
    · by_cases h2 : k = k0
      · rw [put, if_neg h1, if_pos h2] at hx
        simp only [List.mem_cons] at hx ⊢
        tauto
      · rw [put, if_neg h1, if_neg h2] at hx
        simp only [List.mem_cons] at hx ⊢
        rcases hx with h | h
        · tauto
        · rcases ih h with h' | h' <;> tauto

theorem sortedKeys_put (tbl : Table) (k : Key) (r : Rec) (hs : SortedKeys tbl) :
    SortedKeys (put tbl k r) := by
  induction tbl with
  | nil => simp [put, SortedKeys]
  | cons hd tl ih =>
    obtain ⟨k0, r0⟩ := hd
    rw [SortedKeys, List.pairwise_cons] at hs
    obtain ⟨hhd, htl⟩ := hs
    by_cases h1 : k < k0
    · rw [SortedKeys, put, if_pos h1]
      refine List.Pairwise.cons ?_ (List.Pairwise.cons hhd htl)
      intro x hx
      simp only [List.mem_cons] at hx
      rcases hx with h | h
      · subst h
        exact h1
      · exact lt_trans h1 (hhd x h)
    · by_cases h2 : k = k0
      · subst h2
        rw [SortedKeys, put, if_neg h1, if_pos rfl]
        exact List.Pairwise.cons hhd htl
      · rw [SortedKeys, put, if_neg h1, if_neg h2]
        refine List.Pairwise.cons ?_ (ih htl)
        intro x hx
        rcases mem_put tl k r x hx with h | h
        · subst h
          exact Nat.lt_of_le_of_ne (Nat.le_of_not_lt h1) (fun hh => h2 hh.symm)
        · exact hhd x h

theorem sortedKeys_filter (tbl : Table) (p : Key × Rec → Bool) (hs : SortedKeys tbl) :
    SortedKeys (tbl.filter p) :=
  List.Pairwise.sublist (List.filter_sublist tbl) hs

theorem sortedKeys_eraseKey (tbl : Table) (k : Key) (hs : SortedKeys tbl) :
    SortedKeys (eraseKey tbl k) :=
  List.Pairwise.sublist (eraseKey_sublist tbl k) hs

theorem keysNodup_of_sorted (tbl : Table) (hs : SortedKeys tbl) :
    (tbl.map Prod.fst).Nodup := by
  have h := List.pairwise_map.mpr (hs.imp (fun h => Nat.ne_of_lt h))
  exact h

theorem lookup_eq_none_of_not_mem_keys (tbl : Table) (k : Key)
    (h : k ∉ tbl.map Prod.fst) : lookup tbl k = none := by
  induction tbl with
  | nil => rfl
  | cons hd tl ih =>
    obtain ⟨k0, r0⟩ := hd
    simp only [List.map_cons, List.mem_cons, not_or] at h
    rw [lookup, if_neg (fun hh => h.1 hh.symm)]
    exact ih h.2

theorem lookup_filter (tbl : Table) (p : Key × Rec → Bool) (k : Key)
    (hnd : (tbl.map Prod.fst).Nodup) :
    lookup (tbl.filter p) k =
      (lookup tbl k).bind (fun r => if p (k, r) then some r else none) := by
  induction tbl with
  | nil => rfl
  | cons hd tl ih =>
    obtain ⟨k0, r0⟩ := hd
    simp only [List.map_cons, List.nodup_cons] at hnd
    obtain ⟨hk0, hnd2⟩ := hnd
    by_cases h0 : k0 = k
    · subst h0
      rw [lookup, if_pos rfl]
      by_cases hp : p (k0, r0)
      · rw [List.filter_cons, if_pos hp, lookup, if_pos rfl]
        simp [hp]
      · rw [List.filter_cons, if_neg hp]
        have hnone : lookup (tl.filter p) k0 =
            none := by
          refine lookup_eq_none_of_not_mem_keys _ _ (fun hm => hk0 ?_)
          exact ((List.filter_sublist tl).map Prod.fst).subset hm
        simp [hnone, hp]
    · rw [lookup, if_neg h0]
      by_cases hp : p (k0, r0)
      · rw [List.filter_cons, if_pos hp, lookup, if_neg h0]
        exact ih hnd2
      · rw [List.filter_cons, if_neg hp]
        exact ih hnd2

theorem lookup_rm_expired (tbl : Table) (now : Int) (k : Key) (hs : SortedKeys tbl) :
    lookup (rm_expired now tbl) k =
      (lookup tbl k).bind (fun r => if isExpired now r then none else some r) := by
  rw [rm_expired, lookup_filter _ _ _ (keysNodup_of_sorted _ hs)]
  cases h : lookup tbl k with
  | none => rfl
  | some r =>
    cases he : isExpired now r <;> simp [he]

/-! ## Stable-sort lemmas -/

theorem insLe_perm (f : α → Int) (x : α) (l : List α) :
    (insLe f x l).Perm (x :: l) := by
  induction l with
  | nil => rfl
  | cons y tl ih =>
    rw [insLe]
    by_cases h : f x ≤ f y
    · rw [if_pos h]
    · rw [if_neg h]
      exact (ih.cons y).trans (List.Perm.swap x y tl)

theorem ssort_perm (f : α → Int) (l : List α) : (ssort f l).Perm l := by
  induction l with
  | nil => rfl
  | cons x tl ih =>
    exact (insLe_perm f x (ssort f tl)).trans (ih.cons x)

theorem mem_insLe (f : α → Int) (x : α) (l : List α) (z : α) :
    z ∈ insLe f x l ↔ z = x ∨ z ∈ l := by
  constructor
  · intro hz
    have := (insLe_perm f x l).mem_iff.mp hz
    simpa [List.mem_cons] using this
  · intro hz
    refine (insLe_perm f x l).mem_iff.mpr ?_
    simpa [List.mem_cons] using hz

theorem insLe_pairwise (f : α → Int) (x : α) (l : List α)
    (hl : l.Pairwise (fun a b => f a ≤ f b)) :
    (insLe f x l).Pairwise (fun a b => f a ≤ f b) := by
  induction l with
  | nil => simp [insLe]
  | cons y tl ih =>
    rw [List.pairwise_cons] at hl
    obtain ⟨hy, htl⟩ := hl
    rw [insLe]
    by_cases h : f x ≤ f y
    · rw [if_pos h]
      refine List.Pairwise.cons ?_ (List.Pairwise.cons hy htl)
      intro z hz
      simp only [List.mem_cons] at hz
      rcases hz with hz | hz
      · subst hz
        exact h
      · exact le_trans h (hy z hz)
    · rw [if_neg h]
      refine List.Pairwise.cons ?_ (ih htl)
      intro z hz
      rcases (mem_insLe f x tl z).mp hz with hz | hz
      · subst hz
        exact le_of_lt (lt_of_not_le h)
      · exact hy z hz

theorem ssort_pairwise (f : α → Int) (l : List α) :
    (ssort f l).Pairwise (fun a b => f a ≤ f b) := by
  induction l with
  | nil => simp [ssort]
  | cons x tl ih => exact insLe_pairwise f x (ssort f tl) ih

theorem insLe_filter_of_ne (f : α → Int) (x : α) (l : List α) (c : Int)
    (hx : f x ≠ c) :
    (insLe f x l).filter (fun a => decide (f a = c)) =
      l.filter (fun a => decide (f a = c)) := by
  induction l with
  | nil => simp [insLe, hx]
  | cons y tl ih =>
    rw [insLe]
    by_cases h : f x ≤ f y
    · rw [if_pos h, List.filter_cons, if_neg (by simp [hx])]
    · rw [if_neg h]
      simp only [List.filter_cons]
      by_cases hy : f y = c
      · simp [hy, ih]
      · simp [hy, ih]

theorem insLe_filter_of_eq (f : α → Int) (x : α) (l : List α) (c : Int)
    (hx : f x = c) (hl : l.Pairwise (fun a b => f a ≤ f b)) :
    (insLe f x l).filter (fun a => decide (f a = c)) =
      x :: l.filter (fun a => decide (f a = c)) := by
  induction l with
  | nil => simp [insLe, hx]
  | cons y tl ih =>
    rw [List.pairwise_cons] at hl
    obtain ⟨hy, htl⟩ := hl
    rw [insLe]
    by_cases h : f x ≤ f y
    · rw [if_pos h, List.filter_cons, if_pos (by simp [hx])]
    · have hyc : f y ≠ c := fun hyc => h (le_of_eq (hx.trans hyc.symm))
      rw [if_neg h, List.filter_cons, if_neg (by simp [hyc]), ih htl,
        List.filter_cons, if_neg (by simp [hyc])]

theorem ssort_filter_eq (f : α → Int) (l : List α) (c : Int) :
    (ssort f l).filter (fun a => decide (f a = c)) =
      l.filter (fun a => decide (f a = c)) := by
  induction l with
  | nil => rfl
  | cons x tl ih =>
    rw [ssort]
    by_cases hx : f x = c
    · rw [insLe_filter_of_eq f x _ c hx (ssort_pairwise f tl), ih,
        List.filter_cons, if_pos (by simp [hx])]
    · rw [insLe_filter_of_ne f x _ c hx, ih, List.filter_cons,
        if_neg (by simp [hx])]

theorem lookup_eraseKey_self (tbl : Table) (k : Key)
    (hnd : (tbl.map Prod.fst).Nodup) : lookup (eraseKey tbl k) k = none := by
  induction tbl with
  | nil => rfl
  | cons hd tl ih =>
    obtain ⟨k0, r0⟩ := hd
    simp only [List.map_cons, List.nodup_cons] at hnd
    obtain ⟨hk0, hnd2⟩ := hnd
    by_cases h1 : k0 = k
    · subst h1
      rw [eraseKey, if_pos rfl]
      exact lookup_eq_none_of_not_mem_keys tl k0 hk0
    · rw [eraseKey, if_neg h1, lookup, if_neg h1]
      exact ih hnd2

theorem indexSortedRows_false (path : List String) (q : QueryMode) (now : Int) (tbl : Table) :
    indexSortedRows path q false now tbl =
      ssort tsKey (indexCursorRows path q (rm_expired now tbl)) := rfl

theorem indexSortedRows_true (path : List String) (q : QueryMode) (now : Int) (tbl : Table) :
    indexSortedRows path q true now tbl =
      ssort (fun kv => -tsKey kv) (indexCursorRows path q (rm_expired now tbl)) := rfl

/-! ## Claim theorems -/

/-- Claim C9 (code bug): the guard in `Async.init` is
`if (options?.version && options.version <= 0) throw`, so a supplied
`version = 0` — falsy — does **not** raise `InvalidVersion`, although
the error text ("Database version should be at least 1") and the doc
comment ("version Starts from 1") show 0 was meant to be rejected; a
strictly negative version does raise it, and an omitted or positive
version does not. -/
theorem init_version_check_eval :
    initVersionThrows (some 0) = false
    ∧ initVersionThrows (some (-1)) = true
    ∧ initVersionThrows none = false
    ∧ initVersionThrows (some 1) = false := by
  decide

/-- Claim C5 (code bug): `Async.set` stamps `timestamp = now`, but
`Async.update` replaces the record through
`cursor.update({options, value})` — an object with **no** `timestamp`
field — so after an update the stored row has lost its timestamp
(rather than carrying the update time), dropping it from the
`byTimestamp` ordering.  Evaluated at `set` at time 100 followed by
`update` at time 200. -/
theorem update_drops_timestamp :
    (setOp 100 1 (JValue.num 7) (JValue.obj []) []).1 =
      [(1, ⟨JValue.num 7, some (JValue.obj []), some 100⟩)]
    ∧ (updateOp 200 1 ⟨some (JValue.num 42), none⟩
          [(1, ⟨JValue.num 7, some (JValue.obj []), some 100⟩)]).map
        (fun p => lookup p.1 1) =
      some (some ⟨JValue.num 42, some (JValue.obj []), none⟩) := by
  decide

/-- Claim C6: each bound flag independently selects inclusive or
exclusive filtering, applied to index keys before the timestamp sort:
membership in the query result is exactly "live, indexed, and the index
key satisfies the bounds"; on rows with indexed numeric values
{15,16,17,20}, `above 17` (exclusive) returns exactly the value-20 row,
`above 17` inclusive returns the value-17 and value-20 rows, and
`range 16 20` with both bounds exclusive (the default) returns exactly
the value-17 row. -/
theorem index_range_queries :
    indexNoPage ["p"] (QueryMode.above 17 false) false 0 exTable6 =
      [(4, JValue.obj [("p", JValue.num 20)])]
    ∧ indexNoPage ["p"] (QueryMode.above 17 true) false 0 exTable6 =
      [(3, JValue.obj [("p", JValue.num 17)]), (4, JValue.obj [("p", JValue.num 20)])]
    ∧ indexNoPage ["p"] (QueryMode.range 16 20 false false) false 0 exTable6 =
      [(3, JValue.obj [("p", JValue.num 17)])]
    ∧ (∀ (path : List String) (q : QueryMode) (now : Int) (tbl : Table) (kv : Key × Rec),
        kv ∈ indexSortedRows path q false now tbl ↔
          kv ∈ rm_expired now tbl ∧
            ∃ x, indexKeyOf path kv.2 = some x ∧ inQuery q x = true) := by
  refine ⟨by decide, by decide, by decide, ?_⟩
  intro path q now tbl kv
  rw [indexSortedRows_false]
  rw [(ssort_perm _ _).mem_iff, indexCursorRows, (ssort_perm _ _).mem_iff,
    List.mem_filter]
  constructor
  · rintro ⟨hmem, hp⟩
    refine ⟨hmem, ?_⟩
    cases hik : indexKeyOf path kv.2 with
    | none => rw [hik] at hp; cases hp
    | some x =>
      rw [hik] at hp
      exact ⟨x, rfl, hp⟩
  · rintro ⟨hmem, x, hik, hq⟩
    exact ⟨hmem, by rw [hik]; exact hq⟩

/-- Claim C2 counterexample: on a table with two live rows where
index-key order (row with key 2 has index value 1, row with key 1 has
index value 2) disagrees with timestamp order (timestamps 5 and 9), the
no-argument `index(name)` call returns the rows in timestamp order —
the row with the *larger* index key first — not primarily by index key
as the claim states. -/
theorem index_order_counterexample :
    indexNoPage ["p"] QueryMode.noQuery false 0 exTable2 =
      [(1, JValue.obj [("p", JValue.num 2)]), (2, JValue.obj [("p", JValue.num 1)])]
    ∧ indexNoPage ["p"] QueryMode.noQuery false 0 exTable2 ≠
      [(2, JValue.obj [("p", JValue.num 1)]), (1, JValue.obj [("p", JValue.num 2)])] := by
  decide

/-- Claim C2 (amended): the no-argument `index(name)` call returns every
live indexed row sorted primarily by **timestamp** ascending (descending
when `reverse` is set) — `values.sort((a,b) => a.timestamp - b.timestamp)`
runs after the cursor walk — and rows with equal timestamps keep the
cursor's order (index key ascending, ties by primary key), the sort
being stable; the order does not depend on physical insertion slot. -/
theorem index_order_amended (path : List String) (q : QueryMode) (now : Int) (tbl : Table) :
    indexNoPage path q false now tbl =
      (indexSortedRows path q false now tbl).map (fun kv => (kv.1, kv.2.value))
    ∧ (indexSortedRows path q false now tbl).Perm
        (indexCursorRows path q (rm_expired now tbl))
    ∧ (indexSortedRows path q true now tbl).Perm
        (indexCursorRows path q (rm_expired now tbl))
    ∧ (indexSortedRows path q false now tbl).Pairwise (fun a b => tsKey a ≤ tsKey b)
    ∧ (indexSortedRows path q true now tbl).Pairwise (fun a b => tsKey b ≤ tsKey a)
    ∧ (∀ c : Int,
        (indexSortedRows path q false now tbl).filter (fun kv => decide (tsKey kv = c)) =
          (indexCursorRows path q (rm_expired now tbl)).filter
            (fun kv => decide (tsKey kv = c)))
    ∧ (∀ c : Int,
        (indexSortedRows path q true now tbl).filter (fun kv => decide (tsKey kv = c)) =
          (indexCursorRows path q (rm_expired now tbl)).filter
            (fun kv => decide (tsKey kv = c))) := by
  constructor
  · rfl
  constructor
  · rw [indexSortedRows_false]
    exact ssort_perm _ _
  constructor
  · rw [indexSortedRows_true]
    exact ssort_perm _ _
  constructor
  · rw [indexSortedRows_false]
    exact ssort_pairwise _ _
  constructor
  · rw [indexSortedRows_true]
    exact (ssort_pairwise _ _).imp (fun hab => by omega)
  constructor
  · intro c
    rw [indexSortedRows_false]
    exact ssort_filter_eq tsKey _ c
  · intro c
    rw [indexSortedRows_true]
    have h := ssort_filter_eq (fun kv : Key × Rec => -tsKey kv)
      (indexCursorRows path q (rm_expired now tbl)) (-c)
    have hcongr : ∀ l : Table,
        l.filter (fun kv => decide (-tsKey kv = -c)) =
          l.filter (fun kv => decide (tsKey kv = c)) := by
      intro l
      refine List.filter_congr (fun kv _ => ?_)
      by_cases hkv : tsKey kv = c
      · simp [hkv]
      · have h2 : ¬(-tsKey kv = -c) := fun hh => hkv (by omega)
        simp [hkv, h2]
    rw [← hcongr, h, hcongr]

/-- Claim C8 counterexample: consuming a live row (value 7, expiry 100,
timestamp 5) with `consume_default = 0` leaves the row present with
value 0, but the replacement record `{value: 0}` written by
`cursor.update` has dropped the row's `options` and `timestamp` fields —
it is not the old record with only the value replaced. -/
theorem consume_default_counterexample :
    consumeOp (some (JValue.num 0)) 10 1 exTable8 =
      (some (JValue.num 7), [(1, ⟨JValue.num 0, none, none⟩)], true)
    ∧ (⟨JValue.num 0, none, none⟩ : Rec) ≠
      (⟨JValue.num 0, some (JValue.obj [("expiry", JValue.num 100)]), some 5⟩ : Rec) := by
  decide

/-- Claim C8 (amended): for a live row, `consume(key)` returns the row's
current value; when a `consume_default` was configured the row remains
present — `has(key)` stays true at any later time — with the stored
record **replaced by** `{value: consume_default}` (its `options` and
`timestamp` fields are dropped, not preserved); with no default
configured the row is physically deleted.  Both paths post a change
notification. -/
theorem consume_spec (now : Int) (k : Key) (tbl : Table) (r : Rec) (d : JValue)
    (hs : SortedKeys tbl) (hk : lookup (rm_expired now tbl) k = some r) :
    consumeOp (some d) now k tbl =
      (some r.value, put (rm_expired now tbl) k ⟨d, none, none⟩, true)
    ∧ lookup (consumeOp (some d) now k tbl).2.1 k = some ⟨d, none, none⟩
    ∧ (∀ now2 : Int, hasOp now2 k (consumeOp (some d) now k tbl).2.1 = true)
    ∧ consumeOp none now k tbl = (some r.value, eraseKey (rm_expired now tbl) k, true)
    ∧ lookup (consumeOp none now k tbl).2.1 k = none := by
  have hcd : consumeOp (some d) now k tbl =
      (some r.value, put (rm_expired now tbl) k ⟨d, none, none⟩, true) := by
    rw [consumeOp, hk]
  have hcn : consumeOp none now k tbl =
      (some r.value, eraseKey (rm_expired now tbl) k, true) := by
    rw [consumeOp, hk]
  refine ⟨hcd, ?_, ?_, hcn, ?_⟩
  · rw [hcd]
    exact lookup_put_self _ _ _
  · intro now2
    rw [hcd]
    have hs2 : SortedKeys (put (rm_expired now tbl) k ⟨d, none, none⟩) :=
      sortedKeys_put _ _ _ (sortedKeys_filter _ _ hs)
    rw [hasOp, lookup_rm_expired _ _ _ hs2, lookup_put_self]
    rfl
  · rw [hcn]
    exact lookup_eraseKey_self _ _ (keysNodup_of_sorted _ (sortedKeys_filter _ _ hs))

/-- Witness for `consume_spec`: its hypotheses hold, and its conclusion
follows, at the concrete one-row table of the consume scenario. -/
theorem consume_spec_witness :
    (SortedKeys exTable8 ∧ lookup (rm_expired 10 exTable8) 1 = some exRow8)
    ∧ consumeOp (some (JValue.num 0)) 10 1 exTable8 =
      (some exRow8.value, put (rm_expired 10 exTable8) 1 ⟨JValue.num 0, none, none⟩, true) :=
  ⟨⟨by decide, by decide⟩,
    (consume_spec 10 1 exTable8 exRow8 (JValue.num 0) (by decide) (by decide)).1⟩

/-- Claim C10: on a key with no live row, `has` returns false rather
than raising; `rm` and `consume` complete without error, post no change
notification of their own, and leave the table exactly as the
always-run expiry sweep left it — in particular, when no row is expired
at that moment the table is fully unchanged and no notification at all
is posted (the sweep posts only when it deleted something). -/
theorem missing_key_ops (cd : Option JValue) (now : Int) (k : Key) (tbl : Table)
    (hk : lookup (rm_expired now tbl) k = none) :
    hasOp now k tbl = false
    ∧ rmOp now k tbl = (rm_expired now tbl, false)
    ∧ consumeOp cd now k tbl = (none, rm_expired now tbl, false)
    ∧ ((∀ kv ∈ tbl, isExpired now kv.2 = false) →
        rm_expired now tbl = tbl ∧ sweepPosted now tbl = false) := by
  refine ⟨?_, ?_, ?_, ?_⟩
  · rw [hasOp, hk]
    rfl
  · rw [rmOp, hk]
  · rw [consumeOp, hk]
  · intro hall
    constructor
    · rw [rm_expired]
      refine List.filter_eq_self.mpr (fun kv hkv => ?_)
      rw [hall kv hkv]
      rfl
    · rw [sweepPosted]
      rw [List.any_eq_false]
      intro kv hkv
      rw [hall kv hkv]
      exact Bool.false_ne_true

/-- Witness for `missing_key_ops`: key 2 has no live row in the one-row
table of the consume scenario at time 10. -/
theorem missing_key_ops_witness :
    lookup (rm_expired 10 exTable8) 2 = none
    ∧ hasOp 10 2 exTable8 = false :=
  ⟨by decide, (missing_key_ops none 10 2 exTable8 (by decide)).1⟩

theorem lookup_foldl_put (snap : Table) :
    ∀ (base : Table) (k : Key), (snap.map Prod.fst).Nodup →
      lookup (snap.foldl (fun acc kv => put acc kv.1 kv.2) base) k =
        match lookup snap k with
        | some r => some r
        | none => lookup base k := by
  induction snap with
  | nil => intro base k _; rfl
  | cons hd tl ih =>
    intro base k hnd
    obtain ⟨k0, r0⟩ := hd
    simp only [List.map_cons, List.nodup_cons] at hnd
    obtain ⟨hk0, hnd2⟩ := hnd
    rw [List.foldl_cons, ih (put base k0 r0) k hnd2]
    by_cases h0 : k0 = k
    · subst h0
      rw [lookup_eq_none_of_not_mem_keys tl k0 hk0, lookup, if_pos rfl,
        lookup_put_self]
    · rw [lookup, if_neg h0]
      cases lookup tl k with
      | some r => rfl
      | none => exact lookup_put_ne base k0 k r0 (fun hh => h0 hh.symm)

/-- Claim C7: `import(export())` with `merge` unset reproduces an
identical key-to-entry set: import clears the table and writes every
snapshot row back verbatim — same value, options **and timestamp**, no
re-stamping — so every lookup agrees with the exported (post-sweep)
table; and `import(snapshot, merge = true)` onto a populated store is
equivalent to applying each snapshot row as an individual overwrite:
a key present in the snapshot ends up with the snapshot's record, any
other key keeps the store's own record. -/
theorem export_import_roundtrip (now now2 : Int) (tbl : Table) (hs : SortedKeys tbl) :
    (∀ k, lookup (importOp now2 (exportOp now tbl) false tbl) k =
      lookup (rm_expired now tbl) k)
    ∧ (∀ (snap tbl2 : Table), (snap.map Prod.fst).Nodup →
        ∀ k, lookup (importOp now2 snap true tbl2) k =
          match lookup snap k with
          | some r => some r
          | none => lookup (rm_expired now2 tbl2) k) := by
  constructor
  · intro k
    have hnd : ((exportOp now tbl).map Prod.fst).Nodup :=
      keysNodup_of_sorted _ (sortedKeys_filter _ _ hs)
    rw [importOp]
    simp only [if_neg (Bool.false_ne_true)]
    rw [lookup_foldl_put _ _ _ hnd, exportOp]
    cases lookup (rm_expired now tbl) k with
    | some r => rfl
    | none => rfl
  · intro snap tbl2 hnd k
    rw [importOp]
    simp only [if_pos rfl]
    exact lookup_foldl_put _ _ _ hnd

/-- Witness for `export_import_roundtrip`: the round trip at the
concrete consume-scenario table, sweeping at time 10 both ways. -/
theorem export_import_roundtrip_witness :
    SortedKeys exTable8
    ∧ lookup (importOp 10 (exportOp 10 exTable8) false exTable8) 1 =
      lookup (rm_expired 10 exTable8) 1 :=
  ⟨by decide, (export_import_roundtrip 10 10 exTable8 (by decide)).1 1⟩

/-! ## Pagination lemmas -/

theorem chunk_upper (n sz : Nat) (hsz : 0 < sz) : n ≤ ((n + sz - 1) / sz) * sz := by
  have h1 := Nat.div_add_mod (n + sz - 1) sz
  have h2 : (n + sz - 1) % sz < sz := Nat.mod_lt _ hsz
  rw [Nat.mul_comm]
  generalize sz * ((n + sz - 1) / sz) = A at h1 ⊢
  generalize (n + sz - 1) % sz = B at h1 h2
  omega

theorem chunk_lower (n sz i : Nat) (hsz : 0 < sz) (hi : i + 1 < (n + sz - 1) / sz) :
    (i + 1) * sz < n := by
  have h1 := Nat.div_add_mod (n + sz - 1) sz
  have h2 : (n + sz - 1) % sz < sz := Nat.mod_lt _ hsz
  have h3 : (i + 1 + 1) * sz ≤ ((n + sz - 1) / sz) * sz :=
    Nat.mul_le_mul_right sz hi
  rw [Nat.succ_mul (i + 1) sz] at h3
  rw [Nat.mul_comm ((n + sz - 1) / sz) sz] at h3
  generalize sz * ((n + sz - 1) / sz) = A at h1 h3
  generalize (n + sz - 1) % sz = B at h1 h2
  generalize (i + 1) * sz = C at h3 ⊢
  omega

theorem chunks_flatMap (sz : Nat) :
    ∀ (c : Nat) (l : Table), l.length ≤ c * sz →
      ((List.range c).flatMap fun i => (l.drop (i * sz)).take sz) = l := by
  intro c
  induction c with
  | zero =>
    intro l h
    have hl : l = [] := List.eq_nil_of_length_eq_zero (by omega)
    subst hl
    rfl
  | succ c ih =>
    intro l h
    rw [List.range_succ_eq_map, List.flatMap_cons]
    have hshift : (List.map Nat.succ (List.range c)).flatMap
        (fun i => (l.drop (i * sz)).take sz) =
        (List.range c).flatMap (fun i => ((l.drop sz).drop (i * sz)).take sz) := by
      rw [List.flatMap_map]
      congr 1
      funext i
      rw [List.drop_drop]
      congr 2
      rw [Nat.succ_mul]
      omega
    rw [hshift, ih (l.drop sz) (by rw [Nat.succ_mul] at h; simp; omega)]
    simp

/-- Claim C3: for every page number ≥ 1, page size `sz > 0` and offset,
both `page(...)` and the paginated `index(...)` return exactly the
slice `[(page-1)*sz + offset, page*sz + offset)` of the sorted,
filtered row sequence, and `has_next` holds iff at least one row lies
past that window; consequently (offset 0), concatenating
`page(1), ..., page(ceil(n/sz))` reproduces the full `values()`
sequence with no duplicates or omissions, every page before the last
reports `has_next = true`, and the final page reports
`has_next = false`. -/
theorem pagination_correct (now : Int) (tbl : Table) (rev : Bool) (sz offset page : Nat)
    (hsz : 0 < sz) (hp : 1 ≤ page) :
    (pageOp page rev sz offset now tbl).results =
      (((pageRows rev now tbl).drop ((page - 1) * sz + offset)).take sz).map
        (fun kv => (kv.1, kv.2.value))
    ∧ ((pageOp page rev sz offset now tbl).has_next = true ↔
        page * sz + offset < (pageRows rev now tbl).length)
    ∧ (∀ (path : List String) (q : QueryMode),
        (indexPage path q rev page sz offset now tbl).results =
          (((indexSortedRows path q rev now tbl).drop ((page - 1) * sz + offset)).take sz).map
            (fun kv => (kv.1, kv.2.value))
        ∧ ((indexPage path q rev page sz offset now tbl).has_next = true ↔
            page * sz + offset < (indexSortedRows path q rev now tbl).length))
    ∧ ((List.range (((pageRows rev now tbl).length + sz - 1) / sz)).flatMap
          (fun i => (pageOp (i + 1) rev sz 0 now tbl).results) =
        valuesOp rev now tbl)
    ∧ (∀ i, i + 1 < ((pageRows rev now tbl).length + sz - 1) / sz →
        (pageOp (i + 1) rev sz 0 now tbl).has_next = true)
    ∧ (0 < ((pageRows rev now tbl).length + sz - 1) / sz →
        (pageOp (((pageRows rev now tbl).length + sz - 1) / sz) rev sz 0 now tbl).has_next
          = false) := by
  have harith : (page - 1) * sz + offset + sz = page * sz + offset := by
    obtain ⟨p, rfl⟩ : ∃ p, page = p + 1 := ⟨page - 1, by omega⟩
    rw [Nat.add_sub_cancel, Nat.succ_mul]
    omega
  refine ⟨rfl, ?_, ?_, ?_, ?_, ?_⟩
  · simp only [pageOp, decide_eq_true_eq]
    rw [harith]
  · intro path q
    have hsub : page * sz + offset - ((page - 1) * sz + offset) = sz := by omega
    constructor
    · simp only [indexPage]
      rw [hsub]
    · simp only [indexPage, decide_eq_true_eq]
  · have hlen : (pageRows rev now tbl).length ≤
        (((pageRows rev now tbl).length + sz - 1) / sz) * sz :=
      chunk_upper _ sz hsz
    have hchunks := chunks_flatMap sz
      (((pageRows rev now tbl).length + sz - 1) / sz) (pageRows rev now tbl) hlen
    have hpg : ∀ i : Nat, (pageOp (i + 1) rev sz 0 now tbl).results =
        (((pageRows rev now tbl).drop (i * sz)).take sz).map
          (fun kv => (kv.1, kv.2.value)) := by
      intro i
      simp [pageOp]
    calc (List.range (((pageRows rev now tbl).length + sz - 1) / sz)).flatMap
          (fun i => (pageOp (i + 1) rev sz 0 now tbl).results)
        = (List.range (((pageRows rev now tbl).length + sz - 1) / sz)).flatMap
            (fun i => (((pageRows rev now tbl).drop (i * sz)).take sz).map
              (fun kv => (kv.1, kv.2.value))) := by
          rw [funext hpg]
      _ = ((List.range (((pageRows rev now tbl).length + sz - 1) / sz)).flatMap
            (fun i => ((pageRows rev now tbl).drop (i * sz)).take sz)).map
              (fun kv => (kv.1, kv.2.value)) := by
          rw [List.map_flatMap]
      _ = (pageRows rev now tbl).map (fun kv => (kv.1, kv.2.value)) := by
          rw [hchunks]
      _ = valuesOp rev now tbl := rfl
  · intro i hi
    simp only [pageOp, decide_eq_true_eq]
    have h := chunk_lower ((pageRows rev now tbl).length) sz i hsz hi
    rw [Nat.succ_mul] at h
    simpa using h
  · intro hc
    simp only [pageOp]
    rw [decide_eq_false_iff_not]
    have h := chunk_upper ((pageRows rev now tbl).length) sz hsz
    intro hlt
    obtain ⟨d, hd⟩ : ∃ d, ((pageRows rev now tbl).length + sz - 1) / sz = d + 1 :=
      ⟨((pageRows rev now tbl).length + sz - 1) / sz - 1, by omega⟩
    rw [hd] at hlt h
    rw [Nat.add_sub_cancel] at hlt
    rw [Nat.succ_mul] at h
    omega

/-- Witness for `pagination_correct`: page 1 of size 2 over the
four-row range-query table. -/
theorem pagination_correct_witness :
    ((0 : Nat) < 2 ∧ (1 : Nat) ≤ 1)
    ∧ (pageOp 1 false 2 0 0 exTable6).results =
      (((pageRows false 0 exTable6).drop ((1 - 1) * 2 + 0)).take 2).map
        (fun kv => (kv.1, kv.2.value)) :=
  ⟨⟨by decide, by decide⟩,
    (pagination_correct 0 exTable6 false 2 0 1 (by decide) (by decide)).1⟩

/-! ## Merge lemmas (for the update policy) -/

theorem getField_setField_self (af : List (String × JValue)) (k : String) (v : JValue) :
    getField (setField af k v) k = some v := by
  induction af with
  | nil => simp [setField, getField]
  | cons hd tl ih =>
    obtain ⟨k0, v0⟩ := hd
    by_cases h : k0 = k
    · rw [setField, if_pos h, getField, if_pos rfl]
    · rw [setField, if_neg h, getField, if_neg h]
      exact ih

theorem getField_setField_ne (af : List (String × JValue)) (k f : String) (v : JValue)
    (h : f ≠ k) : getField (setField af k v) f = getField af f := by
  induction af with
  | nil =>
    have hkf : ¬(k = f) := fun hh => h hh.symm
    simp [setField, getField, hkf]
  | cons hd tl ih =>
    obtain ⟨k0, v0⟩ := hd
    by_cases h0 : k0 = k
    · subst h0
      rw [setField, if_pos rfl, getField, if_neg (fun hh => h hh.symm), getField,
        if_neg (fun hh => h hh.symm)]
    · rw [setField, if_neg h0, getField, getField]
      by_cases h1 : k0 = f
      · rw [if_pos h1, if_pos h1]
      · rw [if_neg h1, if_neg h1]
        exact ih

theorem getField_writeBack_ne (af : List (String × JValue)) (k f : String)
    (m : Option JValue) (h : f ≠ k) :
    getField (writeBack af k m) f = getField af f := by
  have hset := getField_setField_ne af k f
  cases m with
  | none =>
    cases hg : getField af k with
    | none => simp [writeBack, hg]
    | some v => cases v <;> simp [writeBack, hg]
  | some mv =>
    cases hg : getField af k with
    | none => simp [writeBack, hg]
    | some v => cases v <;> simp [writeBack, hg, hset mv h]

theorem jsMergeFields_obj_shape (bf : List (String × JValue)) :
    ∀ (af : List (String × JValue)) (r : Option JValue),
      jsMergeFields (some (JValue.obj af)) bf = some r →
      ∃ mf, r = some (JValue.obj mf) := by
  induction bf with
  | nil =>
    intro af r hm
    simp only [jsMergeFields] at hm
    injection hm with h1
    exact ⟨af, h1.symm⟩
  | cons hd rest ih =>
    obtain ⟨k, bv⟩ := hd
    intro af r hm
    simp only [jsMergeFields] at hm
    by_cases hob : isObjLike bv
    · rw [if_pos hob] at hm
      cases hj : jsMerge (getField af k) bv with
      | none =>
        rw [hj] at hm
        cases hm
      | some m =>
        rw [hj] at hm
        exact ih _ _ hm
    · rw [if_neg hob] at hm
      exact ih _ _ hm

theorem jsMergeFields_sibling (bf : List (String × JValue)) :
    ∀ (af mf : List (String × JValue)) (f : String),
      jsMergeFields (some (JValue.obj af)) bf = some (some (JValue.obj mf)) →
      f ∉ bf.map Prod.fst →
      getField mf f = getField af f := by
  induction bf with
  | nil =>
    intro af mf f hm _
    simp only [jsMergeFields] at hm
    have haf : JValue.obj af = JValue.obj mf := by
      injection hm with h1
      injection h1
    have : af = mf := by injection haf
    rw [this]
  | cons hd rest ih =>
    obtain ⟨k, bv⟩ := hd
    intro af mf f hm hf
    simp only [List.map_cons, List.mem_cons, not_or] at hf
    obtain ⟨hfk, hfrest⟩ := hf
    simp only [jsMergeFields] at hm
    by_cases hob : isObjLike bv
    · rw [if_pos hob] at hm
      cases hj : jsMerge (getField af k) bv with
      | none =>
        rw [hj] at hm
        cases hm
      | some m =>
        rw [hj] at hm
        rw [ih _ _ f hm hfrest]
        exact getField_writeBack_ne af k f m hfk
    · rw [if_neg hob] at hm
      rw [ih _ _ f hm hfrest]
      exact getField_setField_ne af k f bv hfk

theorem jsMergeFields_scalar (bf : List (String × JValue)) :
    ∀ (af mf : List (String × JValue)) (f : String) (bv : JValue),
      jsMergeFields (some (JValue.obj af)) bf = some (some (JValue.obj mf)) →
      (bf.map Prod.fst).Nodup →
      (f, bv) ∈ bf → isObjLike bv = false →
      getField mf f = some bv := by
  induction bf with
  | nil =>
    intro af mf f bv _ _ hmem _
    cases hmem
  | cons hd rest ih =>
    obtain ⟨k, kv⟩ := hd
    intro af mf f bv hm hnd hmem hsc
    simp only [List.map_cons, List.nodup_cons] at hnd
    obtain ⟨hknd, hndrest⟩ := hnd
    simp only [jsMergeFields] at hm
    rcases List.mem_cons.mp hmem with hhd | hrest
    · have hk : k = f := by
        injection hhd.symm with h1 h2
      have hv : kv = bv := by
        injection hhd.symm with h1 h2
      subst hk
      subst hv
      rw [if_neg (by rw [hsc]; exact Bool.false_ne_true)] at hm
      have hfrest : k ∉ rest.map Prod.fst := hknd
      rw [jsMergeFields_sibling rest _ _ k hm hfrest]
      exact getField_setField_self af k kv
    · have hkf : k ≠ f := by
        intro hh
        exact hknd (by rw [hh]; exact List.mem_map_of_mem Prod.fst hrest)
      by_cases hob : isObjLike kv
      · rw [if_pos hob] at hm
        cases hj : jsMerge (getField af k) kv with
        | none =>
          rw [hj] at hm
          cases hm
        | some m =>
          rw [hj] at hm
          exact ih _ _ f bv hm hndrest hrest hsc
      · rw [if_neg hob] at hm
        exact ih _ _ f bv hm hndrest hrest hsc

theorem jsMergeFields_nested (bf : List (String × JValue)) :
    ∀ (af mf : List (String × JValue)) (f : String) (bo ao : List (String × JValue)),
      jsMergeFields (some (JValue.obj af)) bf = some (some (JValue.obj mf)) →
      (bf.map Prod.fst).Nodup →
      (f, JValue.obj bo) ∈ bf →
      getField af f = some (JValue.obj ao) →
      ∃ m, jsMerge (some (JValue.obj ao)) (JValue.obj bo) = some (some m) ∧
        getField mf f = some m := by
  induction bf with
  | nil =>
    intro af mf f bo ao _ _ hmem _
    cases hmem
  | cons hd rest ih =>
    obtain ⟨k, kv⟩ := hd
    intro af mf f bo ao hm hnd hmem hao
    simp only [List.map_cons, List.nodup_cons] at hnd
    obtain ⟨hknd, hndrest⟩ := hnd
    simp only [jsMergeFields] at hm
    rcases List.mem_cons.mp hmem with hhd | hrest
    · have hk : k = f := by
        injection hhd.symm with h1 h2
      have hv : kv = JValue.obj bo := by
        injection hhd.symm with h1 h2
      subst hk
      subst hv
      rw [if_pos (show isObjLike (JValue.obj bo) = true from rfl)] at hm
      rw [hao] at hm
      cases hj : jsMerge (some (JValue.obj ao)) (JValue.obj bo) with
      | none =>
        rw [hj] at hm
        cases hm
      | some m =>
        rw [hj] at hm
        have hshape : ∃ y, m = some (JValue.obj y) := by
          have := hj
          simp only [jsMerge] at this
          exact jsMergeFields_obj_shape bo ao m this
        obtain ⟨y, rfl⟩ := hshape
        refine ⟨JValue.obj y, rfl, ?_⟩
        have hfrest : k ∉ rest.map Prod.fst := hknd
        have hm2 : jsMergeFields
            (some (JValue.obj (writeBack af k (some (JValue.obj y))))) rest =
            some (some (JValue.obj mf)) := hm
        have hwb : writeBack af k (some (JValue.obj y)) = setField af k (JValue.obj y) := by
          simp [writeBack, hao]
        rw [jsMergeFields_sibling rest _ _ k hm2 hfrest, hwb]
        exact getField_setField_self af k (JValue.obj y)
    · have hkf : k ≠ f := by
        intro hh
        exact hknd (by rw [hh]; exact List.mem_map_of_mem Prod.fst hrest)
      by_cases hob : isObjLike kv
      · rw [if_pos hob] at hm
        cases hj : jsMerge (getField af k) kv with
        | none =>
          rw [hj] at hm
          cases hm
        | some m =>
          rw [hj] at hm
          refine ih _ _ f bo ao hm hndrest hrest ?_
          rw [getField_writeBack_ne af k f m (fun hh => hkf hh.symm)]
          exact hao
      · rw [if_neg hob] at hm
        refine ih _ _ f bo ao hm hndrest hrest ?_
        rw [getField_setField_ne af k f kv (fun hh => hkf hh.symm)]
        exact hao

/-- Claim C4: for an existing key, `update` with a non-array object
value deep-merges it into the stored value via `obj_merge`: every
sibling field not named in the patch is unchanged, scalar patch fields
overwrite, and nested object patch fields merge recursively into the
corresponding nested object; an array patch value is concatenated onto
the old array; a scalar patch value replaces the old value outright; an
omitted value leaves the old value unchanged; and options are merged by
the same `obj_merge`. -/
theorem update_merge_policy (now : Int) (k : Key) (tbl : Table) (r : Rec)
    (hk : lookup (rm_expired now tbl) k = some r) :
    updateOp now k ⟨none, none⟩ tbl =
      some (put (rm_expired now tbl) k ⟨r.value, r.options, none⟩, true)
    ∧ (∀ v : JValue, isObjLike v = false →
        updateOp now k ⟨some v, none⟩ tbl =
          some (put (rm_expired now tbl) k ⟨v, r.options, none⟩, true))
    ∧ (∀ xs ys, r.value = JValue.arr ys →
        updateOp now k ⟨some (JValue.arr xs), none⟩ tbl =
          some (put (rm_expired now tbl) k ⟨JValue.arr (ys ++ xs), r.options, none⟩, true))
    ∧ (∀ af bf mf, r.value = JValue.obj af →
        jsMerge (some (JValue.obj af)) (JValue.obj bf) = some (some (JValue.obj mf)) →
        updateOp now k ⟨some (JValue.obj bf), none⟩ tbl =
            some (put (rm_expired now tbl) k ⟨JValue.obj mf, r.options, none⟩, true)
          ∧ (∀ f, f ∉ bf.map Prod.fst → getField mf f = getField af f)
          ∧ ((bf.map Prod.fst).Nodup → ∀ f bv, (f, bv) ∈ bf → isObjLike bv = false →
              getField mf f = some bv)
          ∧ ((bf.map Prod.fst).Nodup → ∀ f bo ao, (f, JValue.obj bo) ∈ bf →
              getField af f = some (JValue.obj ao) →
              ∃ m, jsMerge (some (JValue.obj ao)) (JValue.obj bo) = some (some m) ∧
                getField mf f = some m))
    ∧ (∀ o no, jsMerge r.options o = some no →
        updateOp now k ⟨none, some o⟩ tbl =
          some (put (rm_expired now tbl) k ⟨r.value, no, none⟩, true)) := by
  refine ⟨?_, ?_, ?_, ?_, ?_⟩
  · simp only [updateOp, hk, mergeOptions, mergeValue]
  · intro v hv
    simp only [updateOp, hk, mergeOptions, mergeValue, hv, Bool.false_eq_true,
      if_false]
  · intro xs ys hys
    simp only [updateOp, hk, mergeOptions, mergeValue, hys, isObjLike, if_true,
      spreadConcat, Option.map]
  · intro af bf mf hobj hmerge
    refine ⟨?_, ?_, ?_, ?_⟩
    · simp only [updateOp, hk, mergeOptions, mergeValue, hobj, isObjLike, if_true,
        hmerge, Option.bind, id_eq]
    · intro f hf
      have hmf : jsMergeFields (some (JValue.obj af)) bf =
          some (some (JValue.obj mf)) := hmerge
      exact jsMergeFields_sibling bf af mf f hmf hf
    · intro hnd f bv hmem hsc
      have hmf : jsMergeFields (some (JValue.obj af)) bf =
          some (some (JValue.obj mf)) := hmerge
      exact jsMergeFields_scalar bf af mf f bv hmf hnd hmem hsc
    · intro hnd f bo ao hmem hao
      have hmf : jsMergeFields (some (JValue.obj af)) bf =
          some (some (JValue.obj mf)) := hmerge
      exact jsMergeFields_nested bf af mf f bo ao hmf hnd hmem hao
  · intro o no hno
    simp only [updateOp, hk, mergeOptions, mergeValue, hno]

/-- Witness for `update_merge_policy`: the concrete one-row table whose
value has fields `a`, `b = {c, d}` and `s`, patched on `a` and `b.c`:
the sibling `s` (and `b.d`) are untouched in the merged value. -/
theorem update_merge_policy_witness :
    (lookup (rm_expired 0 exTable4) 1 = some exRec4
      ∧ exRec4.value = JValue.obj exFields4
      ∧ jsMerge (some (JValue.obj exFields4)) (JValue.obj exPatchFields4) =
          some (some (JValue.obj exMerged4)))
    ∧ updateOp 0 1 ⟨some (JValue.obj exPatchFields4), none⟩ exTable4 =
        some (put (rm_expired 0 exTable4) 1 ⟨JValue.obj exMerged4, exRec4.options, none⟩, true)
    ∧ getField exMerged4 "s" = getField exFields4 "s"
    ∧ getField exMerged4 "a" = some (JValue.num 10) := by
  have h := update_merge_policy 0 1 exTable4 exRec4 (by decide)
  have h4 := h.2.2.2.1 exFields4 exPatchFields4 exMerged4 (by decide) (by decide)
  exact ⟨⟨by decide, by decide, by decide⟩, h4.1,
    h4.2.1 "s" (by decide),
    h4.2.2.1 (by decide) "a" (JValue.num 10) (by decide) (by decide)⟩

/-! ## Frame lemmas over operation sequences -/

theorem sortedKeys_rm_expired (now : Int) (tbl : Table) (hs : SortedKeys tbl) :
    SortedKeys (rm_expired now tbl) :=
  sortedKeys_filter tbl _ hs

theorem updateOp_shape (now : Int) (k : Key) (d : UpdateData) (tbl : Table)
    (tb : Table) (b : Bool) (h : updateOp now k d tbl = some (tb, b)) :
    ∃ rec0 : Rec, tb = put (rm_expired now tbl) k rec0 ∧ b = true := by
  cases hl : lookup (rm_expired now tbl) k with
  | none =>
    simp only [updateOp, hl] at h
    exact Option.noConfusion h
  | some r =>
    simp only [updateOp, hl] at h
    cases hmo : mergeOptions r.options d.options with
    | none =>
      simp only [hmo] at h
      exact Option.noConfusion h
    | some newOpts =>
      simp only [hmo] at h
      cases hmv : mergeValue r.value d.value with
      | none =>
        simp only [hmv] at h
        exact Option.noConfusion h
      | some newVal =>
        simp only [hmv, Option.some_inj] at h
        exact ⟨⟨newVal, newOpts, none⟩, (congrArg Prod.fst h).symm,
          (congrArg Prod.snd h).symm⟩

theorem sortedKeys_applyOp (cd : Option JValue) (now : Int) (op : Op) (tbl : Table)
    (hs : SortedKeys tbl) : SortedKeys (applyOp cd now op tbl) := by
  have hsw : SortedKeys (rm_expired now tbl) := sortedKeys_rm_expired now tbl hs
  cases op with
  | set k v o => exact sortedKeys_put _ _ _ hsw
  | rm k =>
    simp only [applyOp, rmOp]
    cases hl : lookup (rm_expired now tbl) k with
    | none => exact hsw
    | some r => exact sortedKeys_eraseKey _ _ hsw
  | consume k =>
    simp only [applyOp, consumeOp]
    cases hl : lookup (rm_expired now tbl) k with
    | none => exact hsw
    | some r =>
      cases cd with
      | none => exact sortedKeys_eraseKey _ _ hsw
      | some d => exact sortedKeys_put _ _ _ hsw
  | update k d =>
    rw [applyOp]
    cases hu : updateOp now k d tbl with
    | none => exact hsw
    | some p =>
      obtain ⟨tb, b⟩ := p
      obtain ⟨rec0, htb, _⟩ := updateOp_shape now k d tbl tb b hu
      subst htb
      exact sortedKeys_put _ _ _ hsw

theorem lookup_applyOp_ne (cd : Option JValue) (now : Int) (op : Op) (tbl : Table)
    (k : Key) (hne : op.key ≠ k) :
    lookup (applyOp cd now op tbl) k = lookup (rm_expired now tbl) k := by
  cases op with
  | set k2 v o =>
    exact lookup_put_ne _ k2 k _ (fun hh => hne hh.symm)
  | rm k2 =>
    simp only [applyOp, rmOp]
    cases hl : lookup (rm_expired now tbl) k2 with
    | none => rfl
    | some r => exact lookup_eraseKey_ne _ k2 k (fun hh => hne hh.symm)
  | consume k2 =>
    simp only [applyOp, consumeOp]
    cases hl : lookup (rm_expired now tbl) k2 with
    | none => rfl
    | some r =>
      cases cd with
      | none => exact lookup_eraseKey_ne _ k2 k (fun hh => hne hh.symm)
      | some d => exact lookup_put_ne _ k2 k _ (fun hh => hne hh.symm)
  | update k2 d =>
    rw [applyOp]
    cases hu : updateOp now k2 d tbl with
    | none => rfl
    | some p =>
      obtain ⟨tb, b⟩ := p
      obtain ⟨rec0, htb, _⟩ := updateOp_shape now k2 d tbl tb b hu
      subst htb
      exact lookup_put_ne _ k2 k rec0 (fun hh => hne hh.symm)

theorem sortedKeys_applyOps (cd : Option JValue) (ops : List (Op × Int)) :
    ∀ tbl : Table, SortedKeys tbl → SortedKeys (applyOps cd ops tbl) := by
  induction ops with
  | nil => intro tbl hs; exact hs
  | cons p rest ih =>
    intro tbl hs
    exact ih _ (sortedKeys_applyOp cd p.2 p.1 tbl hs)

theorem lookup_applyOps_live (cd : Option JValue) (ops : List (Op × Int)) :
    ∀ (tbl : Table) (k : Key) (e : Rec) (t : Int), SortedKeys tbl →
      lookup tbl k = some e → expiryOf e = some t →
      (∀ p ∈ ops, Op.key p.1 ≠ k ∧ p.2 < t) →
      lookup (applyOps cd ops tbl) k = some e := by
  induction ops with
  | nil =>
    intro tbl k e t _ hk _ _
    exact hk
  | cons p rest ih =>
    intro tbl k e t hs hk ht hops
    obtain ⟨hne, htm⟩ := hops p (List.mem_cons_self p rest)
    have hexp : isExpired p.2 e = false := by
      simp only [isExpired, ht, decide_eq_false_iff_not]
      omega
    have hstep : lookup (applyOp cd p.2 p.1 tbl) k = some e := by
      rw [lookup_applyOp_ne cd p.2 p.1 tbl k hne,
        lookup_rm_expired tbl p.2 k hs, hk]
      simp [hexp]
    exact ih _ k e t (sortedKeys_applyOp cd p.2 p.1 tbl hs) hstep ht
      (fun q hq => hops q (List.mem_cons_of_mem p hq))

theorem lookup_applyOps_none (cd : Option JValue) (ops : List (Op × Int)) :
    ∀ (tbl : Table) (k : Key), SortedKeys tbl →
      lookup tbl k = none → (∀ p ∈ ops, Op.key p.1 ≠ k) →
      lookup (applyOps cd ops tbl) k = none := by
  induction ops with
  | nil =>
    intro tbl k _ hk _
    exact hk
  | cons p rest ih =>
    intro tbl k hs hk hops
    have hstep : lookup (applyOp cd p.2 p.1 tbl) k = none := by
      rw [lookup_applyOp_ne cd p.2 p.1 tbl k (hops p (List.mem_cons_self p rest)),
        lookup_rm_expired tbl p.2 k hs, hk]
      rfl
    exact ih _ k (sortedKeys_applyOp cd p.2 p.1 tbl hs) hstep
      (fun q hq => hops q (List.mem_cons_of_mem p hq))

theorem lookup_applyOps_opt (cd : Option JValue) (ops : List (Op × Int)) :
    ∀ (tbl : Table) (k : Key) (e : Rec), SortedKeys tbl →
      lookup tbl k = some e → (∀ p ∈ ops, Op.key p.1 ≠ k) →
      lookup (applyOps cd ops tbl) k = some e ∨
        lookup (applyOps cd ops tbl) k = none := by
  induction ops with
  | nil =>
    intro tbl k e _ hk _
    exact Or.inl hk
  | cons p rest ih =>
    intro tbl k e hs hk hops
    have hne := hops p (List.mem_cons_self p rest)
    have hs2 := sortedKeys_applyOp cd p.2 p.1 tbl hs
    have hrest := fun q hq => hops q (List.mem_cons_of_mem p hq)
    have hstep : lookup (applyOp cd p.2 p.1 tbl) k = some e ∨
        lookup (applyOp cd p.2 p.1 tbl) k = none := by
      rw [lookup_applyOp_ne cd p.2 p.1 tbl k hne,
        lookup_rm_expired tbl p.2 k hs, hk]
      cases he : isExpired p.2 e with
      | true => exact Or.inr (by simp [he])
      | false => exact Or.inl (by simp [he])
    rcases hstep with hsome | hnone
    · exact ih _ k e hs2 hsome hrest
    · exact Or.inr (lookup_applyOps_none cd rest _ k hs2 hnone hrest)

/-- Claim C1: for a key stored with `options.expiry = t`, after any
sequence of unrelated operations (each addressed at another key,
executed at times ≤ `now`): while `now < t` both `has` and `get` still
observe the entry; once `t ≤ now` every read or write treats the key as
absent — `has` is false, `get` returns nothing, `update` fails with
`NoSuchEntry` — because the sweep that runs before each table access
physically deletes exactly the rows whose expiry is ≤ `now` (a table
no operation touches keeps its physical rows: tables only change
through the operations modelled here). -/
theorem expiry_invariant (cd : Option JValue) (tbl : Table) (k : Key) (e : Rec) (t : Int)
    (ops : List (Op × Int)) (now : Int)
    (hs : SortedKeys tbl) (hk : lookup tbl k = some e) (ht : expiryOf e = some t)
    (hops : ∀ p ∈ ops, Op.key p.1 ≠ k ∧ p.2 ≤ now) :
    (now < t →
      hasOp now k (applyOps cd ops tbl) = true
      ∧ getOp now k (applyOps cd ops tbl) = some e.value)
    ∧ (t ≤ now →
      hasOp now k (applyOps cd ops tbl) = false
      ∧ getOp now k (applyOps cd ops tbl) = none
      ∧ ∀ d : UpdateData, updateOp now k d (applyOps cd ops tbl) = none)
    ∧ (∀ k2 r2, lookup (rm_expired now (applyOps cd ops tbl)) k2 = some r2 →
        isExpired now r2 = false)
    ∧ (∀ tb : Table, SortedKeys tb → ∀ k2 r2,
        lookup (rm_expired now tb) k2 = some r2 ↔
          lookup tb k2 = some r2 ∧ isExpired now r2 = false) := by
  have hs2 : SortedKeys (applyOps cd ops tbl) := sortedKeys_applyOps cd ops tbl hs
  have hsweep : ∀ tb : Table, SortedKeys tb → ∀ k2 r2,
      lookup (rm_expired now tb) k2 = some r2 ↔
        lookup tb k2 = some r2 ∧ isExpired now r2 = false := by
    intro tb hstb k2 r2
    rw [lookup_rm_expired tb now k2 hstb]
    cases hl : lookup tb k2 with
    | none => simp
    | some r =>
      have hgoal : ((some r).bind (fun r3 => if isExpired now r3 then none else some r3)) =
          (if isExpired now r then none else some r) := rfl
      rw [hgoal]
      cases he : isExpired now r with
      | true =>
        rw [if_pos rfl]
        constructor
        · intro h
          cases h
        · rintro ⟨hr, hexp⟩
          injection hr with hr2
          rw [← hr2] at hexp
          rw [he] at hexp
          cases hexp
      | false =>
        rw [if_neg Bool.false_ne_true]
        constructor
        · intro h
          refine ⟨h, ?_⟩
          injection h with h2
          rw [← h2]
          exact he
        · rintro ⟨hr, _⟩
          exact hr
  refine ⟨?_, ?_, ?_, hsweep⟩
  · intro hlt
    have hlive : lookup (applyOps cd ops tbl) k = some e :=
      lookup_applyOps_live cd ops tbl k e t hs hk ht
        (fun p hp => ⟨(hops p hp).1, by have := (hops p hp).2; omega⟩)
    have hexp : isExpired now e = false := by
      simp only [isExpired, ht, decide_eq_false_iff_not]
      omega
    have hfinal : lookup (rm_expired now (applyOps cd ops tbl)) k = some e := by
      rw [lookup_rm_expired _ now k hs2, hlive]
      simp [hexp]
    refine ⟨?_, ?_⟩
    · rw [hasOp, hfinal]
      rfl
    · rw [getOp, hfinal]
      rfl
  · intro hge
    have hopt := lookup_applyOps_opt cd ops tbl k e hs hk (fun p hp => (hops p hp).1)
    have hfinal : lookup (rm_expired now (applyOps cd ops tbl)) k = none := by
      rcases hopt with hsome | hnone
      · rw [lookup_rm_expired _ now k hs2, hsome]
        have hexp : isExpired now e = true := by
          simp only [isExpired, ht, decide_eq_true_eq]
          omega
        simp [hexp]
      · rw [lookup_rm_expired _ now k hs2, hnone]
        rfl
    refine ⟨?_, ?_, ?_⟩
    · rw [hasOp, hfinal]
      rfl
    · rw [getOp, hfinal]
      rfl
    · intro d
      rw [updateOp, hfinal]
  · intro k2 r2 h
    exact ((hsweep _ hs2 k2 r2).mp h).2

/-- Witness for `expiry_invariant`: the one-row table whose entry
expires at 100, after an unrelated `set` on key 2 at time 20, still
answers `has` at time 50. -/
theorem expiry_invariant_witness :
    (SortedKeys exTable8 ∧ lookup exTable8 1 = some exRow8
      ∧ expiryOf exRow8 = some 100
      ∧ (∀ p ∈ [(Op.set 2 (JValue.num 1) (JValue.obj []), (20 : Int))],
          Op.key p.1 ≠ 1 ∧ p.2 ≤ (50 : Int))
      ∧ (50 : Int) < 100)
    ∧ hasOp 50 1
        (applyOps none [(Op.set 2 (JValue.num 1) (JValue.obj []), (20 : Int))] exTable8)
      = true :=
  ⟨⟨by decide, by decide, by decide, by decide, by decide⟩,
    ((expiry_invariant none exTable8 1 exRow8 100
        [(Op.set 2 (JValue.num 1) (JValue.obj []), (20 : Int))] 50
        (by decide) (by decide) (by decide) (by decide)).1 (by decide)).1⟩

end UStore
